import Mathlib

/-!
# Verification of the substitution ciphers in `caesar.py`

Shallow embedding of the repository's single module: the `Cipher` base
class (tokenization, memoized `encrypt`/`decrypt`, decrypt-before-encrypt
guard) and its two variants `Caesar` and `Unicode_Substitution`.

Text is modelled as a list of Unicode code points (`List Nat`), since the
Python code manipulates characters through `ord`/`chr`.  Python's `%` on a
positive modulus returns a non-negative result, which coincides with
Lean's `Int.emod`, so the decrypt formulas are embedded over `Int` and
converted back with `Int.toNat`.
-/

set_option autoImplicit false

/-- A code point Python's `str.split()` treats as whitespace: the
characters `c` with `c.isspace() = True` (ASCII whitespace, the
information-separator controls 0x1C–0x1F, NEL, NBSP, and the Unicode
space/line/paragraph separators). -/
def isSpace (c : Nat) : Prop :=
  (9 ≤ c ∧ c ≤ 13) ∨ (28 ≤ c ∧ c ≤ 31) ∨ c = 32 ∨ c = 133 ∨ c = 160 ∨
  c = 5760 ∨ (8192 ≤ c ∧ c ≤ 8202) ∨ c = 8232 ∨ c = 8233 ∨
  c = 8239 ∨ c = 8287 ∨ c = 12288

instance (c : Nat) : Decidable (isSpace c) := by
  unfold isSpace; infer_instance

/-- Worker for `pySplit`: `acc` holds the (reversed) current token. -/
def splitAux : List Nat → List Nat → List (List Nat)
  | [], acc => if acc = [] then [] else [acc.reverse]
  | c :: rest, acc =>
    if isSpace c then
      if acc = [] then splitAux rest [] else acc.reverse :: splitAux rest []
    else
      splitAux rest (c :: acc)

/-- Python's `text.split()` (no separator argument): split on runs of
whitespace, discarding empty tokens, so no token is empty and no token
contains a whitespace character. -/
def pySplit (s : List Nat) : List (List Nat) :=
  splitAux s []

/-- Python's `" ".join(word_list)`: the tokens joined by single spaces
(code point 32). -/
def joinWords : List (List Nat) → List Nat
  | [] => []
  | [w] => w
  | w :: ws => w ++ 32 :: joinWords ws

/-- Python's `c.islower()` for a single character, modelled faithfully on
the Latin-1 range (code points below 256): ASCII `a`–`z`, `ª`, `µ`, `º`,
`ß`–`ö` and `ø`–`ÿ` are lowercase.  Code points at 256 and above are
modelled as not lowercase (the inputs of interest lie below 256). -/
def isPyLower (c : Nat) : Prop :=
  (97 ≤ c ∧ c ≤ 122) ∨ c = 170 ∨ c = 181 ∨ c = 186 ∨
  (223 ≤ c ∧ c ≤ 246) ∨ (248 ≤ c ∧ c ≤ 255)

instance (c : Nat) : Decidable (isPyLower c) := by
  unfold isPyLower; infer_instance

/-- Python's `c.isupper()` for a single character, modelled faithfully on
the Latin-1 range: ASCII `A`–`Z`, `À`–`Ö` and `Ø`–`Þ` are uppercase.
Code points at 256 and above are modelled as not uppercase. -/
def isPyUpper (c : Nat) : Prop :=
  (65 ≤ c ∧ c ≤ 90) ∨ (192 ≤ c ∧ c ≤ 214) ∨ (216 ≤ c ∧ c ≤ 222)

instance (c : Nat) : Decidable (isPyUpper c) := by
  unfold isPyUpper; infer_instance

/-- The spec's error taxonomy: `InvalidParameter` is the construction-time
assertion failure (`AssertionError`), `InvalidState` the
decrypt-before-encrypt failure (`RuntimeError`). -/
inductive CipherError where
  | invalidParameter
  | invalidState
deriving DecidableEq, Repr

instance {ε α : Type} [DecidableEq ε] [DecidableEq α] :
    DecidableEq (Except ε α)
  | .error e, .error f =>
    if h : e = f then .isTrue (by rw [h])
    else .isFalse (fun hh => h (by injection hh))
  | .error _, .ok _ => .isFalse (fun hh => Except.noConfusion hh)
  | .ok _, .error _ => .isFalse (fun hh => Except.noConfusion hh)
  | .ok a, .ok b =>
    if h : a = b then .isTrue (by rw [h])
    else .isFalse (fun hh => h (by injection hh))

/-- A Python number handed to a constructor: either an `int` or a `float`
(floats modelled as rationals; `isinstance(n, int)` is `false` for every
float, including integral-valued ones). -/
inductive PyNum where
  | ofInt (i : Int)
  | ofFloat (q : Rat)
deriving DecidableEq, Repr

/-- Which subclass a job was built from. -/
inductive Variant where
  | caesar
  | unicodeSub
deriving DecidableEq, Repr

/-- The state of one cipher job: the fields set by `Cipher.__init__`
(`n`, `text`, `word_tokens = text.split()`, and the two memoization
fields starting out as `None`), plus the variant tag. -/
structure Job where
  variant : Variant
  n : Int
  text : List Nat
  word_tokens : List (List Nat)
  encrypted_text : Option (List Nat)
  decrypted_text : Option (List Nat)
deriving DecidableEq, Repr

/-- `Cipher.__init__(n, text)`: stores the shift and text, tokenizes the
text on whitespace, and leaves both caches empty. -/
def mkJob (v : Variant) (n : Int) (text : List Nat) : Job :=
  { variant := v
    n := n
    text := text
    word_tokens := pySplit text
    encrypted_text := none
    decrypted_text := none }

namespace Caesar

/-- The per-character forward transform of `Caesar._encrypt`:
`chr((ord(c) + n - offset) % (ord("z") - offset) + offset)` on lowercase
(offset 97, modulus `122 - 97 = 25`), the analogue on uppercase
(offset 65, modulus `90 - 65 = 25`), identity otherwise. -/
def encChar (n : Int) (c : Nat) : Nat :=
  if isPyLower c then (((c : Int) + n - 97) % 25 + 97).toNat
  else if isPyUpper c then (((c : Int) + n - 65) % 25 + 65).toNat
  else c

/-- The per-character inverse transform of `Caesar._decrypt`: the same
formula with the shift subtracted. -/
def decChar (n : Int) (c : Nat) : Nat :=
  if isPyLower c then (((c : Int) - n - 97) % 25 + 97).toNat
  else if isPyUpper c then (((c : Int) - n - 65) % 25 + 65).toNat
  else c

/-- `Caesar.__init__`: asserts `isinstance(n, int)` and `0 <= n <= 25`
before delegating to `Cipher.__init__`; an assertion failure means no job
is produced. -/
def construct (num : PyNum) (text : List Nat) : Except CipherError Job :=
  match num with
  | .ofInt i =>
    if 0 ≤ i ∧ i ≤ 25 then .ok (mkJob .caesar i text)
    else .error .invalidParameter
  | .ofFloat _ => .error .invalidParameter

end Caesar

namespace Unicode_Substitution

/-- The per-character forward transform of `Unicode_Substitution._encrypt`:
`chr((ord(c) + n) % 65535)` (the class constant `max_ord = 65535`). -/
def encChar (n : Int) (c : Nat) : Nat :=
  (((c : Int) + n) % 65535).toNat

/-- The per-character inverse transform of `Unicode_Substitution._decrypt`:
`chr((ord(c) - n) % 65535)`. -/
def decChar (n : Int) (c : Nat) : Nat :=
  (((c : Int) - n) % 65535).toNat

/-- `Unicode_Substitution.__init__`: asserts `isinstance(n, int)` and
`0 <= n <= 65534` before delegating to `Cipher.__init__`. -/
def construct (num : PyNum) (text : List Nat) : Except CipherError Job :=
  match num with
  | .ofInt i =>
    if 0 ≤ i ∧ i ≤ 65534 then .ok (mkJob .unicodeSub i text)
    else .error .invalidParameter
  | .ofFloat _ => .error .invalidParameter

end Unicode_Substitution

namespace Cipher

/-- The variant's `_encrypt()`: apply the forward transform to every
character of every stored word token and rejoin with single spaces. -/
def runEncrypt (j : Job) : List Nat :=
  match j.variant with
  | .caesar => joinWords (j.word_tokens.map (List.map (Caesar.encChar j.n)))
  | .unicodeSub =>
    joinWords (j.word_tokens.map (List.map (Unicode_Substitution.encChar j.n)))

/-- The variant's `_decrypt()`: re-split the encrypted text on whitespace,
apply the inverse transform to every character of every token, and rejoin
with single spaces. -/
def runDecrypt (j : Job) (enc : List Nat) : List Nat :=
  match j.variant with
  | .caesar => joinWords ((pySplit enc).map (List.map (Caesar.decChar j.n)))
  | .unicodeSub =>
    joinWords ((pySplit enc).map (List.map (Unicode_Substitution.decChar j.n)))

/-- `Cipher.encrypt()`: compute and memoize `encrypted_text` on first
call, return the cached value afterwards.  Returns the result together
with the updated job state. -/
def encrypt (j : Job) : List Nat × Job :=
  match j.encrypted_text with
  | some e => (e, j)
  | none =>
    let e := runEncrypt j
    (e, { j with encrypted_text := some e })

/-- `Cipher.decrypt()`: raise (`InvalidState`) when `encrypted_text` is
still `None`, leaving the job untouched; otherwise compute and memoize
`decrypted_text` on first call and return the cached value afterwards. -/
def decrypt (j : Job) : Except CipherError (List Nat) × Job :=
  match j.encrypted_text with
  | none => (.error .invalidState, j)
  | some e =>
    match j.decrypted_text with
    | some d => (.ok d, j)
    | none =>
      let d := runDecrypt j e
      (.ok d, { j with decrypted_text := some d })

/-- `Cipher.get_text()`: the original input text, unchanged. -/
def get_text (j : Job) : List Nat :=
  j.text

end Cipher

/-- A call made on a job, for reasoning about call histories. -/
inductive Op where
  | enc
  | dec
deriving DecidableEq, Repr

/-- Run a sequence of `encrypt()` / `decrypt()` calls on a job, keeping
only the evolving state. -/
def runOps : Job → List Op → Job
  | j, [] => j
  | j, .enc :: rest => runOps (Cipher.encrypt j).2 rest
  | j, .dec :: rest => runOps (Cipher.decrypt j).2 rest

-- Scratch checks of the embedding on concrete inputs (kept as examples).
example : pySplit [97, 32, 32, 32, 98, 9, 99] = [[97], [98], [99]] := by decide
example : (Cipher.encrypt (mkJob .caesar 0 [122])).1 = [97] := by decide
example :
    (Cipher.encrypt (mkJob .caesar 20 [97, 98])).1 = [117, 118] := by decide
example :
    (Cipher.encrypt (mkJob .unicodeSub 65470 [97, 97])).1 = [32, 32] := by
  decide

/-! ## Lemmas about tokenization and rejoining -/

theorem splitAux_append_token (w : List Nat) (s acc : List Nat)
    (hw : ∀ c ∈ w, ¬ isSpace c) :
    splitAux (w ++ s) acc = splitAux s (w.reverse ++ acc) := by
  induction w generalizing acc with
  | nil => simp
  | cons c w ih =>
    have hc : ¬ isSpace c := hw c (List.mem_cons_self c w)
    simp only [List.cons_append, splitAux, if_neg hc, List.append_eq]
    rw [ih (c :: acc) (fun d hd => hw d (List.mem_cons_of_mem c hd))]
    simp [List.append_assoc]

/-- Splitting a text that is already the single-space join of nonempty,
whitespace-free tokens recovers exactly those tokens. -/
theorem pySplit_joinWords (ts : List (List Nat))
    (h : ∀ w ∈ ts, w ≠ [] ∧ ∀ c ∈ w, ¬ isSpace c) :
    pySplit (joinWords ts) = ts := by
  induction ts with
  | nil => rfl
  | cons w ws ih =>
    have hw := h w (List.mem_cons_self w ws)
    cases ws with
    | nil =>
      show splitAux (joinWords [w]) [] = [w]
      have hjw : joinWords [w] = w ++ [] := by simp [joinWords]
      rw [hjw, splitAux_append_token w [] [] hw.2]
      simp [splitAux, hw.1]
    | cons w2 ws2 =>
      show splitAux (joinWords (w :: w2 :: ws2)) [] = w :: w2 :: ws2
      have hjw : joinWords (w :: w2 :: ws2) = w ++ 32 :: joinWords (w2 :: ws2) :=
        rfl
      rw [hjw, splitAux_append_token w _ [] hw.2]
      have hsp : isSpace 32 := by decide
      have hacc : ¬ (w.reverse ++ [] = ([] : List Nat)) := by
        simp [hw.1]
      simp only [splitAux, if_pos hsp, if_neg hacc]
      have hrec : splitAux (joinWords (w2 :: ws2)) [] = w2 :: ws2 :=
        ih (fun u hu => h u (List.mem_cons_of_mem w hu))
      rw [hrec]
      simp

theorem splitAux_tokens (s : List Nat) :
    ∀ acc, (∀ c ∈ acc, ¬ isSpace c) →
      ∀ w ∈ splitAux s acc, w ≠ [] ∧ ∀ c ∈ w, ¬ isSpace c := by
  induction s with
  | nil =>
    intro acc hacc w hw
    by_cases ha : acc = []
    · simp [splitAux, ha] at hw
    · simp only [splitAux, if_neg ha, List.mem_singleton] at hw
      subst hw
      refine ⟨by simp [ha], ?_⟩
      intro c hc
      exact hacc c (List.mem_reverse.mp hc)
  | cons c rest ih =>
    intro acc hacc w hw
    by_cases hc : isSpace c
    · by_cases ha : acc = []
      · simp only [splitAux, if_pos hc, if_pos ha] at hw
        exact ih [] (by simp) w hw
      · simp only [splitAux, if_pos hc, if_neg ha, List.mem_cons] at hw
        rcases hw with hw | hw
        · subst hw
          refine ⟨by simp [ha], ?_⟩
          intro d hd
          exact hacc d (List.mem_reverse.mp hd)
        · exact ih [] (by simp) w hw
    · simp only [splitAux, if_neg hc] at hw
      refine ih (c :: acc) ?_ w hw
      intro d hd
      rcases List.mem_cons.mp hd with hd | hd
      · subst hd; exact hc
      · exact hacc d hd

/-- Every token produced by `pySplit` is nonempty and whitespace-free. -/
theorem pySplit_tokens (s : List Nat) :
    ∀ w ∈ pySplit s, w ≠ [] ∧ ∀ c ∈ w, ¬ isSpace c :=
  splitAux_tokens s [] (by simp)

/-- Mapping a function that fixes every element of a list is the
identity on that list. -/
theorem list_map_eq_self {α : Type} (f : α → α) :
    ∀ l : List α, (∀ a ∈ l, f a = a) → l.map f = l
  | [], _ => rfl
  | a :: l, h => by
    simp only [List.map_cons, h a (List.mem_cons_self a l)]
    rw [list_map_eq_self f l (fun b hb => h b (List.mem_cons_of_mem a hb))]

/-! ## Lemmas about the per-character transforms -/

theorem isPyLower_of_lowerRange {c : Nat} (h1 : 97 ≤ c) (h2 : c ≤ 122) :
    isPyLower c := by
  unfold isPyLower; omega

theorem not_isPyLower_of_upperRange {c : Nat} (h1 : 65 ≤ c) (h2 : c ≤ 90) :
    ¬ isPyLower c := by
  unfold isPyLower; omega

theorem isPyUpper_of_upperRange {c : Nat} (h1 : 65 ≤ c) (h2 : c ≤ 90) :
    isPyUpper c := by
  unfold isPyUpper; omega

theorem not_isSpace_of_letterRange {c : Nat} (h1 : 65 ≤ c) (h2 : c ≤ 122) :
    ¬ isSpace c := by
  unfold isSpace; omega

/-- The Caesar forward transform sends `a`–`z` into `a`–`y`. -/
theorem Caesar.encChar_lowerRange (n : Int) (c : Nat)
    (h1 : 97 ≤ c) (h2 : c ≤ 122) :
    97 ≤ Caesar.encChar n c ∧ Caesar.encChar n c ≤ 121 := by
  unfold Caesar.encChar
  rw [if_pos (isPyLower_of_lowerRange h1 h2)]
  omega

/-- The Caesar forward transform sends `A`–`Z` into `A`–`Y`. -/
theorem Caesar.encChar_upperRange (n : Int) (c : Nat)
    (h1 : 65 ≤ c) (h2 : c ≤ 90) :
    65 ≤ Caesar.encChar n c ∧ Caesar.encChar n c ≤ 89 := by
  unfold Caesar.encChar
  rw [if_neg (not_isPyLower_of_upperRange h1 h2),
    if_pos (isPyUpper_of_upperRange h1 h2)]
  omega

/-- The Caesar forward transform never produces a whitespace character
from a non-whitespace character. -/
theorem Caesar.encChar_not_isSpace (n : Int) (c : Nat) (h : ¬ isSpace c) :
    ¬ isSpace (Caesar.encChar n c) := by
  by_cases hl : isPyLower c
  · have hb : 97 ≤ Caesar.encChar n c ∧ Caesar.encChar n c ≤ 121 := by
      unfold Caesar.encChar
      rw [if_pos hl]
      omega
    exact not_isSpace_of_letterRange (by omega) (show Caesar.encChar n c ≤ 122 by omega)
  · by_cases hu : isPyUpper c
    · have hb : 65 ≤ Caesar.encChar n c ∧ Caesar.encChar n c ≤ 89 := by
        unfold Caesar.encChar
        rw [if_neg hl, if_pos hu]
        omega
      exact not_isSpace_of_letterRange hb.1 (by omega)
    · unfold Caesar.encChar
      rw [if_neg hl, if_neg hu]
      exact h

/-- On the letters `a`–`y` and `A`–`Y` the Caesar inverse transform
undoes the forward transform (for any integer shift). -/
theorem Caesar.decChar_cancels_encChar (n : Int) (c : Nat)
    (h : (97 ≤ c ∧ c ≤ 121) ∨ (65 ≤ c ∧ c ≤ 89)) :
    Caesar.decChar n (Caesar.encChar n c) = c := by
  rcases h with ⟨h1, h2⟩ | ⟨h1, h2⟩
  · have hl : isPyLower c := isPyLower_of_lowerRange h1 (by omega)
    have hb := Caesar.encChar_lowerRange n c h1 (by omega)
    have hl2 : isPyLower (Caesar.encChar n c) :=
      isPyLower_of_lowerRange hb.1 (by omega)
    unfold Caesar.decChar
    rw [if_pos hl2]
    unfold Caesar.encChar
    rw [if_pos hl]
    unfold Caesar.encChar at hb
    rw [if_pos hl] at hb
    omega
  · have hl : ¬ isPyLower c := not_isPyLower_of_upperRange h1 (by omega)
    have hu : isPyUpper c := isPyUpper_of_upperRange h1 (by omega)
    have hb := Caesar.encChar_upperRange n c h1 (by omega)
    have hl2 : ¬ isPyLower (Caesar.encChar n c) :=
      not_isPyLower_of_upperRange hb.1 (by omega)
    have hu2 : isPyUpper (Caesar.encChar n c) :=
      isPyUpper_of_upperRange hb.1 (by omega)
    unfold Caesar.decChar
    rw [if_neg hl2, if_pos hu2]
    unfold Caesar.encChar
    rw [if_neg hl, if_pos hu]
    unfold Caesar.encChar at hb
    rw [if_neg hl, if_pos hu] at hb
    omega

/-- The Unicode-substitution inverse transform undoes the forward
transform on every code point below 65535, for any integer shift. -/
theorem Unicode_Substitution.decChar_undoes_encChar (n : Int) (c : Nat)
    (hc : c < 65535) :
    Unicode_Substitution.decChar n (Unicode_Substitution.encChar n c) = c := by
  unfold Unicode_Substitution.decChar Unicode_Substitution.encChar
  omega

/-- Applying the Caesar forward transform to a list of nonempty,
whitespace-free tokens yields nonempty, whitespace-free tokens. -/
theorem caesar_encTokens_good (n : Int) (ts : List (List Nat))
    (h : ∀ w ∈ ts, w ≠ [] ∧ ∀ c ∈ w, ¬ isSpace c) :
    ∀ w ∈ ts.map (List.map (Caesar.encChar n)),
      w ≠ [] ∧ ∀ c ∈ w, ¬ isSpace c := by
  intro w hw
  rcases List.mem_map.mp hw with ⟨w0, hw0, rfl⟩
  refine ⟨by simp [(h w0 hw0).1], ?_⟩
  intro c hc
  rcases List.mem_map.mp hc with ⟨c0, hc0, rfl⟩
  exact Caesar.encChar_not_isSpace n c0 ((h w0 hw0).2 c0 hc0)

/-! ## Claim theorems -/

/-- C1, counterexample: the claim fails as stated.  With shift 0 the text
`"z"` round-trips to `"a"`, not `"z"`, because the Caesar transform
reduces modulo 25 and `(122 - 97) mod 25 = 0`. -/
theorem claim_C1_counterexample :
    Caesar.construct (.ofInt 0) [122] = .ok (mkJob .caesar 0 [122])
    ∧ (Cipher.decrypt (Cipher.encrypt (mkJob .caesar 0 [122])).2).1 = .ok [97]
    ∧ Except.ok ([97] : List Nat) ≠
        (.ok [122] : Except CipherError (List Nat)) := by
  refine ⟨by decide, by decide, ?_⟩
  intro h
  simp at h

/-- C1 (amended): for every shift 0 ≤ s ≤ 25 and every text that is a
single-space join of nonempty tokens of ASCII letters `a`–`y` and
`A`–`Y` (the letters `z` and `Z` excluded, as the counterexample forces),
`decrypt()` after `encrypt()` returns the original text. -/
theorem claim_C1_roundtrip (n : Int) (ts : List (List Nat))
    (h0 : 0 ≤ n) (h25 : n ≤ 25)
    (hne : ∀ w ∈ ts, w ≠ [])
    (hlet : ∀ w ∈ ts, ∀ c ∈ w, (97 ≤ c ∧ c ≤ 121) ∨ (65 ≤ c ∧ c ≤ 89)) :
    Caesar.construct (.ofInt n) (joinWords ts) =
        .ok (mkJob .caesar n (joinWords ts))
    ∧ (Cipher.decrypt (Cipher.encrypt (mkJob .caesar n (joinWords ts))).2).1 =
        .ok (joinWords ts) := by
  constructor
  · show (if 0 ≤ n ∧ n ≤ 25 then
        (Except.ok (mkJob .caesar n (joinWords ts)) : Except CipherError Job)
      else .error .invalidParameter) = .ok (mkJob .caesar n (joinWords ts))
    rw [if_pos (show 0 ≤ n ∧ n ≤ 25 from ⟨h0, h25⟩)]
  · have hgood : ∀ w ∈ ts, w ≠ [] ∧ ∀ c ∈ w, ¬ isSpace c := by
      intro w hw
      refine ⟨hne w hw, fun c hc => ?_⟩
      rcases hlet w hw c hc with ⟨a, b⟩ | ⟨a, b⟩
      · exact not_isSpace_of_letterRange (by omega) (by omega)
      · exact not_isSpace_of_letterRange (by omega) (by omega)
    have hsplit : pySplit (joinWords ts) = ts := pySplit_joinWords ts hgood
    have hsplit2 :
        pySplit (joinWords (ts.map (List.map (Caesar.encChar n)))) =
          ts.map (List.map (Caesar.encChar n)) :=
      pySplit_joinWords _ (caesar_encTokens_good n ts hgood)
    have hdec :
        (ts.map (List.map (Caesar.encChar n))).map
            (List.map (Caesar.decChar n)) = ts := by
      rw [List.map_map]
      apply list_map_eq_self
      intro w hw
      show List.map (Caesar.decChar n) (List.map (Caesar.encChar n) w) = w
      rw [List.map_map]
      apply list_map_eq_self
      intro c hc
      exact Caesar.decChar_cancels_encChar n c (hlet w hw c hc)
    have key :
        (Cipher.decrypt (Cipher.encrypt (mkJob .caesar n (joinWords ts))).2).1
          = .ok (joinWords ((pySplit (joinWords ((pySplit (joinWords ts)).map
              (List.map (Caesar.encChar n))))).map
                (List.map (Caesar.decChar n)))) := rfl
    rw [key, hsplit, hsplit2, hdec]

/-- C1, witness: the round-trip theorem applied to shift 3 and the
two-token text `"hi yo"`. -/
theorem claim_C1_witness :
    Caesar.construct (.ofInt 3) (joinWords [[104, 105], [121, 111]]) =
        .ok (mkJob .caesar 3 (joinWords [[104, 105], [121, 111]]))
    ∧ (Cipher.decrypt
        (Cipher.encrypt (mkJob .caesar 3 (joinWords [[104, 105], [121, 111]]))).2).1 =
        .ok (joinWords [[104, 105], [121, 111]]) :=
  claim_C1_roundtrip 3 [[104, 105], [121, 111]] (by decide) (by decide)
    (by decide) (by decide)

/-- C3, counterexample: the claim fails as stated.  With shift 65470
(within 0–65534) the letters-only text `"aa"` encrypts to two spaces,
so the decrypt-side tokenization drops everything and the round trip
returns the empty string. -/
theorem claim_C3_counterexample :
    Unicode_Substitution.construct (.ofInt 65470) [97, 97] =
        .ok (mkJob .unicodeSub 65470 [97, 97])
    ∧ (Cipher.encrypt (mkJob .unicodeSub 65470 [97, 97])).1 = [32, 32]
    ∧ (Cipher.decrypt (Cipher.encrypt (mkJob .unicodeSub 65470 [97, 97])).2).1 =
        .ok []
    ∧ Except.ok ([] : List Nat) ≠
        (.ok [97, 97] : Except CipherError (List Nat)) := by
  refine ⟨by decide, by decide, by decide, ?_⟩
  intro h
  simp at h

/-- C3 (amended): for every shift 0 ≤ s ≤ 65534 and every text that is a
single-space join of nonempty tokens of non-whitespace code points below
65535, provided additionally (as the counterexample forces) that no
token character encrypts onto a whitespace code point, `decrypt()` after
`encrypt()` returns the original text. -/
theorem claim_C3_roundtrip (n : Int) (ts : List (List Nat))
    (h0 : 0 ≤ n) (hmax : n ≤ 65534)
    (hne : ∀ w ∈ ts, w ≠ [])
    (hch : ∀ w ∈ ts, ∀ c ∈ w,
      c < 65535 ∧ ¬ isSpace c ∧ ¬ isSpace (Unicode_Substitution.encChar n c)) :
    Unicode_Substitution.construct (.ofInt n) (joinWords ts) =
        .ok (mkJob .unicodeSub n (joinWords ts))
    ∧ (Cipher.decrypt (Cipher.encrypt (mkJob .unicodeSub n (joinWords ts))).2).1 =
        .ok (joinWords ts) := by
  constructor
  · show (if 0 ≤ n ∧ n ≤ 65534 then
        (Except.ok (mkJob .unicodeSub n (joinWords ts)) : Except CipherError Job)
      else .error .invalidParameter) = .ok (mkJob .unicodeSub n (joinWords ts))
    rw [if_pos (show 0 ≤ n ∧ n ≤ 65534 from ⟨h0, hmax⟩)]
  · have hgood : ∀ w ∈ ts, w ≠ [] ∧ ∀ c ∈ w, ¬ isSpace c := by
      intro w hw
      exact ⟨hne w hw, fun c hc => (hch w hw c hc).2.1⟩
    have hsplit : pySplit (joinWords ts) = ts := pySplit_joinWords ts hgood
    have hets_good :
        ∀ w ∈ ts.map (List.map (Unicode_Substitution.encChar n)),
          w ≠ [] ∧ ∀ c ∈ w, ¬ isSpace c := by
      intro w hw
      rcases List.mem_map.mp hw with ⟨w0, hw0, rfl⟩
      refine ⟨by simp [hne w0 hw0], fun c hc => ?_⟩
      rcases List.mem_map.mp hc with ⟨c0, hc0, rfl⟩
      exact (hch w0 hw0 c0 hc0).2.2
    have hsplit2 :
        pySplit (joinWords (ts.map (List.map (Unicode_Substitution.encChar n)))) =
          ts.map (List.map (Unicode_Substitution.encChar n)) :=
      pySplit_joinWords _ hets_good
    have hdec :
        (ts.map (List.map (Unicode_Substitution.encChar n))).map
            (List.map (Unicode_Substitution.decChar n)) = ts := by
      rw [List.map_map]
      apply list_map_eq_self
      intro w hw
      show List.map (Unicode_Substitution.decChar n)
          (List.map (Unicode_Substitution.encChar n) w) = w
      rw [List.map_map]
      apply list_map_eq_self
      intro c hc
      exact Unicode_Substitution.decChar_undoes_encChar n c (hch w hw c hc).1
    have key :
        (Cipher.decrypt (Cipher.encrypt (mkJob .unicodeSub n (joinWords ts))).2).1
          = .ok (joinWords ((pySplit (joinWords ((pySplit (joinWords ts)).map
              (List.map (Unicode_Substitution.encChar n))))).map
                (List.map (Unicode_Substitution.decChar n)))) := rfl
    rw [key, hsplit, hsplit2, hdec]

/-- C3, witness: the Unicode round-trip theorem applied to the driver's
sample shift 6000 and the two-token text `"He y"`. -/
theorem claim_C3_witness :
    Unicode_Substitution.construct (.ofInt 6000)
        (joinWords [[72, 101], [121]]) =
        .ok (mkJob .unicodeSub 6000 (joinWords [[72, 101], [121]]))
    ∧ (Cipher.decrypt
        (Cipher.encrypt (mkJob .unicodeSub 6000 (joinWords [[72, 101], [121]]))).2).1 =
        .ok (joinWords [[72, 101], [121]]) :=
  claim_C3_roundtrip 6000 [[72, 101], [121]] (by decide) (by decide)
    (by decide) (by decide)

/-- C9 (confirmed): `Caesar(0, "a   b\tc").encrypt()` yields `"a b c"`,
and in general the encrypted output is the whitespace-split tokens of the
input, each transformed, rejoined by single spaces — in particular the
output is a fixed point of split-then-rejoin (all whitespace runs have
collapsed to single separating spaces). -/
theorem claim_C9_normalization :
    (Cipher.encrypt (mkJob .caesar 0 [97, 32, 32, 32, 98, 9, 99])).1 =
        [97, 32, 98, 32, 99]
    ∧ ∀ (n : Int) (text : List Nat),
        (Cipher.encrypt (mkJob .caesar n text)).1
            = joinWords ((pySplit text).map (List.map (Caesar.encChar n)))
        ∧ joinWords (pySplit (Cipher.encrypt (mkJob .caesar n text)).1)
            = (Cipher.encrypt (mkJob .caesar n text)).1 := by
  refine ⟨by decide, ?_⟩
  intro n text
  have hfst : (Cipher.encrypt (mkJob .caesar n text)).1
      = joinWords ((pySplit text).map (List.map (Caesar.encChar n))) := rfl
  refine ⟨hfst, ?_⟩
  rw [hfst, pySplit_joinWords _ (caesar_encTokens_good n _ (pySplit_tokens text))]

/-- C2, counterexample: the claim fails as stated.  `Caesar(0, "z")`
encrypts to `"a"` (code point 97), not `"z"` (122), because
`(122 + 0 - 97) % 25 + 97 = 97`. -/
theorem claim_C2_counterexample :
    (Cipher.encrypt (mkJob .caesar 0 [122])).1 = [97]
    ∧ ([97] : List Nat) ≠ [122] := by
  refine ⟨rfl, ?_⟩
  intro h
  simp at h

/-- C2 (amended): constructing a Caesar job with shift 0 and text `"z"`
succeeds, and its `encrypt()` returns `"a"` (the modulus-25 arithmetic
wraps `z` to `a` even at shift 0). -/
theorem claim_C2_shift0_z :
    Caesar.construct (.ofInt 0) [122] = .ok (mkJob .caesar 0 [122])
    ∧ (Cipher.encrypt (mkJob .caesar 0 [122])).1 = [97] :=
  ⟨rfl, rfl⟩

/-- C4, counterexample: the claim fails as stated.  The code point 233
(`é`) is not an ASCII letter, yet Python classifies it as lowercase, so
the Caesar encrypt transform moves it (to 108, `l`) instead of passing it
through; the decrypt transform moves it as well. -/
theorem claim_C4_counterexample :
    (¬ (97 ≤ (233 : Nat) ∧ (233 : Nat) ≤ 122))
    ∧ (¬ (65 ≤ (233 : Nat) ∧ (233 : Nat) ≤ 90))
    ∧ Caesar.encChar 0 233 = 108
    ∧ Caesar.encChar 0 233 ≠ 233
    ∧ Caesar.decChar 0 233 ≠ 233 := by
  decide

/-- C4 (amended): for the Caesar variant, every Latin-1 character (code
point below 256, where the embedded `isPyLower`/`isPyUpper` coincide with
Python's classification) that Python classifies as neither lowercase nor
uppercase — all digits, punctuation and whitespace, but not every
non-ASCII letter (e.g. `é` is moved) — is left unchanged by the
per-character encrypt and decrypt transforms, for every shift. -/
theorem claim_C4_passthrough (n : Int) (c : Nat) (hc : c < 256)
    (hl : ¬ isPyLower c) (hu : ¬ isPyUpper c) :
    Caesar.encChar n c = c ∧ Caesar.decChar n c = c := by
  unfold Caesar.encChar Caesar.decChar
  rw [if_neg hl, if_neg hu, if_neg hl, if_neg hu]
  exact ⟨rfl, rfl⟩

/-- C4, witness: the passthrough theorem applied to shift 7 and the
digit `0` (code point 48). -/
theorem claim_C4_witness :
    Caesar.encChar 7 48 = 48 ∧ Caesar.decChar 7 48 = 48 :=
  claim_C4_passthrough 7 48 (by decide) (by decide) (by decide)

/-- C5 (confirmed): for every valid Caesar shift and lowercase letter
`c`, the forward transform yields `97 + ((c - 97 + shift) mod 25)`, and
for every uppercase letter the analogue with 65 — exactly the spec's
formula, modulus 25 included. -/
theorem claim_C5_formula (n : Int) (c : Nat) (h0 : 0 ≤ n) (h25 : n ≤ 25) :
    (97 ≤ c → c ≤ 122 →
      (Caesar.encChar n c : Int) = 97 + (((c : Int) - 97 + n) % 25))
    ∧ (65 ≤ c → c ≤ 90 →
      (Caesar.encChar n c : Int) = 65 + (((c : Int) - 65 + n) % 25)) := by
  constructor
  · intro h1 h2
    unfold Caesar.encChar
    rw [if_pos (isPyLower_of_lowerRange h1 h2)]
    omega
  · intro h1 h2
    unfold Caesar.encChar
    rw [if_neg (not_isPyLower_of_upperRange h1 h2),
      if_pos (isPyUpper_of_upperRange h1 h2)]
    omega

/-- C5, witness: the formula theorem applied to shift 20 and the
letters `a` (97) and `A` (65). -/
theorem claim_C5_witness :
    (Caesar.encChar 20 97 : Int) = 97 + (((97 : Int) - 97 + 20) % 25)
    ∧ (Caesar.encChar 20 65 : Int) = 65 + (((65 : Int) - 65 + 20) % 25) :=
  ⟨(claim_C5_formula 20 97 (by decide) (by decide)).1 (by decide) (by decide),
   (claim_C5_formula 20 65 (by decide) (by decide)).2 (by decide) (by decide)⟩

/-- C10 (confirmed): for every valid Caesar shift, the image of a
lowercase letter lies in `a`–`y` and the image of an uppercase letter in
`A`–`Y`; `z` and `Z` never occur as images, because the modulus is 25. -/
theorem claim_C10_image (n : Int) (c : Nat) (h0 : 0 ≤ n) (h25 : n ≤ 25) :
    (97 ≤ c → c ≤ 122 →
      97 ≤ Caesar.encChar n c ∧ Caesar.encChar n c ≤ 121)
    ∧ (65 ≤ c → c ≤ 90 →
      65 ≤ Caesar.encChar n c ∧ Caesar.encChar n c ≤ 89) := by
  exact ⟨fun h1 h2 => Caesar.encChar_lowerRange n c h1 h2,
    fun h1 h2 => Caesar.encChar_upperRange n c h1 h2⟩

/-- C10, witness: the image-range theorem applied to shift 25 and the
letters `z` (122) and `Z` (90). -/
theorem claim_C10_witness :
    (97 ≤ Caesar.encChar 25 122 ∧ Caesar.encChar 25 122 ≤ 121)
    ∧ (65 ≤ Caesar.encChar 25 90 ∧ Caesar.encChar 25 90 ≤ 89) :=
  ⟨(claim_C10_image 25 122 (by decide) (by decide)).1 (by decide) (by decide),
   (claim_C10_image 25 90 (by decide) (by decide)).2 (by decide) (by decide)⟩

/-! ## Lemmas about the encrypt/decrypt state machine -/

theorem encrypt_snd_encrypted (j : Job) :
    ((Cipher.encrypt j).2).encrypted_text = some (Cipher.encrypt j).1 := by
  rcases j with ⟨v, nn, tx, wt, et, dt⟩
  cases et <;> rfl

theorem decrypt_snd_encrypted (j : Job) :
    ((Cipher.decrypt j).2).encrypted_text = j.encrypted_text := by
  rcases j with ⟨v, nn, tx, wt, et, dt⟩
  cases et <;> cases dt <;> rfl

theorem decrypt_fst_error_iff (j : Job) :
    (Cipher.decrypt j).1 = .error .invalidState ↔ j.encrypted_text = none := by
  rcases j with ⟨v, nn, tx, wt, et, dt⟩
  cases et <;> cases dt <;> simp [Cipher.decrypt]

theorem decrypt_error_unchanged (j : Job)
    (h : (Cipher.decrypt j).1 = .error .invalidState) :
    (Cipher.decrypt j).2 = j := by
  rcases j with ⟨v, nn, tx, wt, et, dt⟩
  cases et <;> cases dt <;> first | rfl | simp [Cipher.decrypt] at h

theorem runOps_encrypted_none (j : Job) (ops : List Op) :
    (runOps j ops).encrypted_text = none ↔
      (j.encrypted_text = none ∧ Op.enc ∉ ops) := by
  induction ops generalizing j with
  | nil => simp [runOps]
  | cons op rest ih =>
    cases op with
    | enc =>
      show (runOps (Cipher.encrypt j).2 rest).encrypted_text = none ↔ _
      rw [ih]
      simp [encrypt_snd_encrypted]
    | dec =>
      show (runOps (Cipher.decrypt j).2 rest).encrypted_text = none ↔ _
      rw [ih, decrypt_snd_encrypted]
      simp [List.mem_cons]

/-- C6 (confirmed): on any constructed job of either variant, after any
sequence of `encrypt()`/`decrypt()` calls, a `decrypt()` call fails with
`InvalidState` if and only if `encrypt()` was never called, and a failed
call leaves the job state unchanged.  In particular `decrypt()` on a
fresh job fails. -/
theorem claim_C6_state_guard (v : Variant) (n : Int) (text : List Nat)
    (ops : List Op) :
    ((Cipher.decrypt (runOps (mkJob v n text) ops)).1 =
        .error .invalidState ↔ Op.enc ∉ ops)
    ∧ ((Cipher.decrypt (runOps (mkJob v n text) ops)).1 =
        .error .invalidState →
      (Cipher.decrypt (runOps (mkJob v n text) ops)).2 =
        runOps (mkJob v n text) ops) := by
  constructor
  · rw [decrypt_fst_error_iff, runOps_encrypted_none]
    simp [mkJob]
  · exact decrypt_error_unchanged _

/-- C6, witness: a freshly constructed Caesar job (empty call history)
rejects `decrypt()` and is left unchanged by the failed call. -/
theorem claim_C6_witness :
    ((Cipher.decrypt (runOps (mkJob .caesar 0 [120]) [])).1 =
        .error .invalidState ↔ Op.enc ∉ ([] : List Op))
    ∧ ((Cipher.decrypt (runOps (mkJob .caesar 0 [120]) [])).1 =
        .error .invalidState →
      (Cipher.decrypt (runOps (mkJob .caesar 0 [120]) [])).2 =
        runOps (mkJob .caesar 0 [120]) []) :=
  claim_C6_state_guard .caesar 0 [120] []

/-- C7 (confirmed): Caesar construction succeeds exactly when the shift
is an `int` in 0..25; in particular `Caesar(-1, "x")`, `Caesar(26, "x")`
and `Caesar(1.5, "x")` fail with `InvalidParameter` while
`Caesar(0, "x")` and `Caesar(25, "x")` produce jobs. -/
theorem claim_C7_construction_bounds :
    (∀ (num : PyNum) (text : List Nat),
      (∃ j, Caesar.construct num text = .ok j) ↔
        ∃ i : Int, num = .ofInt i ∧ 0 ≤ i ∧ i ≤ 25)
    ∧ Caesar.construct (.ofInt (-1)) [120] = .error .invalidParameter
    ∧ Caesar.construct (.ofInt 26) [120] = .error .invalidParameter
    ∧ Caesar.construct (.ofFloat (3 / 2)) [120] = .error .invalidParameter
    ∧ Caesar.construct (.ofInt 0) [120] = .ok (mkJob .caesar 0 [120])
    ∧ Caesar.construct (.ofInt 25) [120] = .ok (mkJob .caesar 25 [120]) := by
  refine ⟨?_, rfl, rfl, rfl, rfl, rfl⟩
  intro num text
  cases num with
  | ofInt i =>
    by_cases h : 0 ≤ i ∧ i ≤ 25
    · constructor
      · intro _
        exact ⟨i, rfl, h.1, h.2⟩
      · intro _
        refine ⟨mkJob .caesar i text, ?_⟩
        show (if 0 ≤ i ∧ i ≤ 25 then
            (Except.ok (mkJob .caesar i text) : Except CipherError Job)
          else .error .invalidParameter) = _
        rw [if_pos h]
    · constructor
      · intro ⟨j, hj⟩
        exfalso
        revert hj
        show ¬ ((if 0 ≤ i ∧ i ≤ 25 then
            (Except.ok (mkJob .caesar i text) : Except CipherError Job)
          else .error .invalidParameter) = .ok j)
        rw [if_neg h]
        intro hh
        exact Except.noConfusion hh
      · intro ⟨i2, hi2, hb1, hb2⟩
        exfalso
        cases hi2
        exact h ⟨hb1, hb2⟩
  | ofFloat q =>
    constructor
    · intro ⟨j, hj⟩
      exact Except.noConfusion hj
    · intro ⟨i, hi, _⟩
      exact PyNum.noConfusion hi

/-- C7, witness: by the bounds theorem, shift 3 produces a job. -/
theorem claim_C7_witness :
    ∃ j, Caesar.construct (.ofInt 3) [120] = .ok j :=
  (claim_C7_construction_bounds.1 (.ofInt 3) [120]).mpr
    ⟨3, rfl, by decide, by decide⟩

/-- C8 (confirmed): on every job, `encrypt()` stores its result, a
repeated `encrypt()` returns the cached pair unchanged (so no
recomputation can be observed), a cached `encrypted_text` is returned
as-is, and the same memoization holds for `decrypt()` and
`decrypted_text`. -/
theorem claim_C8_memoization (j : Job) :
    ((Cipher.encrypt j).2).encrypted_text = some (Cipher.encrypt j).1
    ∧ Cipher.encrypt (Cipher.encrypt j).2 = Cipher.encrypt j
    ∧ (∀ e, j.encrypted_text = some e → Cipher.encrypt j = (e, j))
    ∧ Cipher.decrypt (Cipher.decrypt j).2 = Cipher.decrypt j
    ∧ (∀ e d, j.encrypted_text = some e → j.decrypted_text = some d →
        Cipher.decrypt j = (.ok d, j)) := by
  rcases j with ⟨v, nn, tx, wt, et, dt⟩
  refine ⟨?_, ?_, ?_, ?_, ?_⟩
  · cases et <;> rfl
  · cases et <;> rfl
  · intro e he
    cases et with
    | none => exact Option.noConfusion he
    | some e0 =>
      cases he
      rfl
  · cases et <;> cases dt <;> rfl
  · intro e d he hd
    cases et with
    | none => exact Option.noConfusion he
    | some e0 =>
      cases dt with
      | none => exact Option.noConfusion hd
      | some d0 =>
        cases he
        cases hd
        rfl

/-- C8, witness: the memoization theorem applied to a job whose caches
are already populated returns the cached values unchanged. -/
theorem claim_C8_witness :
    Cipher.encrypt ⟨.caesar, 1, [97], [[97]], some [98], some [97]⟩ =
        ([98], ⟨.caesar, 1, [97], [[97]], some [98], some [97]⟩)
    ∧ Cipher.decrypt ⟨.caesar, 1, [97], [[97]], some [98], some [97]⟩ =
        (.ok [97], ⟨.caesar, 1, [97], [[97]], some [98], some [97]⟩) :=
  ⟨(claim_C8_memoization ⟨.caesar, 1, [97], [[97]], some [98], some [97]⟩).2.2.1
      [98] rfl,
   (claim_C8_memoization ⟨.caesar, 1, [97], [[97]], some [98], some [97]⟩).2.2.2.2
      [98] [97] rfl rfl⟩
